import Mathlib

/-!
Shallow embedding of the WhatsApp transcript preprocessor
(`src/MADS-DAV/src/wa_analyzer/preprocess.py`) and proofs about it.

Strings are modelled as `List Char`; Python lines arrive as `List Char`
values.  The dialect regular expressions and the `datetime.strptime`
call are modelled as parameters (partial capture functions), since the
parser is generic over them.
-/

/-- Characters treated as whitespace by Python's `str.strip` and by `\s`
in unicode-mode regular expressions (the set of Unicode whitespace
characters). -/
def pythonWhitespaceChars : List Char :=
  [' ', '\t', '\n', '\r', '\x0B', '\x0C',
   '\x1C', '\x1D', '\x1E', '\x1F', '\x85',
   ' ', ' ',
   ' ', ' ', ' ', ' ', ' ', ' ',
   ' ', ' ', ' ', ' ', ' ',
   ' ', ' ', ' ', ' ', '　']

/-- Decidable test for Python whitespace. -/
def isPythonSpace (c : Char) : Bool :=
  pythonWhitespaceChars.contains c

/-- The zero-width characters removed by the regex character class
`[​-‍﻿]` in `normalize_author`: ZWSP, ZWNJ, ZWJ and the
BOM character. -/
def isZeroWidth (c : Char) : Bool :=
  c = '​' || c = '‌' || c = '‍' || c = '﻿'

/-- Space characters whose NFKC compatibility decomposition is the plain
space U+0020 (no-break spaces and the fixed-width typographic spaces). -/
def nfkcSpaceChars : List Char :=
  [' ',
   ' ', ' ', ' ', ' ', ' ', ' ',
   ' ', ' ', ' ', ' ', ' ',
   ' ', ' ', '　']

/-- The character-wise compatibility part of the NFKC model: the
no-break and typographic space characters decompose to U+0020; ASCII,
the zero-width characters, the tilde operator, the combining accents
and the other characters used here are fixed.  Multi-character
compatibility decompositions outside this repertoire are not
represented. -/
def nfkcChar (c : Char) : Char :=
  if nfkcSpaceChars.contains c then ' ' else c

/-- A modeled subset of Unicode's canonical composition pairs: Latin
letters followed by a combining accent compose to the precomposed
letter.  Pairs outside the table are treated as non-composing. -/
def composePair : Char → Char → Option Char
  | 'a', '\u0301' => some '\u00E1'
  | 'e', '\u0301' => some '\u00E9'
  | 'i', '\u0301' => some '\u00ED'
  | 'o', '\u0301' => some '\u00F3'
  | 'u', '\u0301' => some '\u00FA'
  | 'A', '\u0301' => some '\u00C1'
  | 'E', '\u0301' => some '\u00C9'
  | 'a', '\u0300' => some '\u00E0'
  | 'e', '\u0300' => some '\u00E8'
  | 'o', '\u0302' => some '\u00F4'
  | 'n', '\u0303' => some '\u00F1'
  | _, _ => none

/-- The canonical-composition pass of the NFKC model: each character
composes with the head of the already-composed remainder when the pair
is in the composition table. -/
def nfkcCompose : List Char → List Char
  | [] => []
  | a :: rest =>
    match nfkcCompose rest with
    | [] => [a]
    | b :: rest' =>
      match composePair a b with
      | some c => c :: rest'
      | none => a :: b :: rest'

/-- Models `unicodedata.normalize("NFKC", s)`: character-wise
compatibility mapping followed by canonical composition over the
modeled pair table.  In particular, removing a zero-width joiner
between a letter and a combining accent (as `normalize_author` does)
leaves a string this function changes, exactly as with real NFKC. -/
def nfkc (s : List Char) : List Char :=
  nfkcCompose (s.map nfkcChar)

/-- The Unicode tilde operator U+223C matched by the leading-tilde
stripping step of `normalize_author`. -/
def tildeOp : Char := '∼'

/-- Removal of trailing Python whitespace (the right half of `str.strip`). -/
def dropTrailing : List Char → List Char
  | [] => []
  | c :: rest =>
    match dropTrailing rest with
    | [] => if isPythonSpace c then [] else [c]
    | r => c :: r

/-- Models Python `str.strip()`: drop leading and trailing whitespace. -/
def pyStrip (l : List Char) : List Char :=
  dropTrailing (l.dropWhile isPythonSpace)

/-- Run-collapsing worker: `b` records whether the character just before
the current position was whitespace. -/
def collapseAux : Bool → List Char → List Char
  | _, [] => []
  | prevSpace, c :: rest =>
    if isPythonSpace c then
      if prevSpace then collapseAux true rest
      else ' ' :: collapseAux true rest
    else c :: collapseAux false rest

/-- Models `re.sub` of the pattern `\s+` by a single space: every
maximal run of whitespace becomes one space. -/
def collapseWs (l : List Char) : List Char :=
  collapseAux false l

/-- Models the zero-width-character removal step (`re.sub` of the class
`[​-‍﻿]` by the empty string). -/
def zwRemove (l : List Char) : List Char :=
  l.filter (fun c => !isZeroWidth c)

/-- The no-break space U+00A0. -/
def nbspChar : Char := '\u00A0'

/-- The narrow no-break space U+202F. -/
def nnbspChar : Char := '\u202F'

/-- Models the two `str.replace` calls sending NBSP (U+00A0) and NNBSP
(U+202F) to a regular space. -/
def nbspReplace (l : List Char) : List Char :=
  l.map (fun c => if c = nbspChar || c = nnbspChar then ' ' else c)

/-- Models `re.sub` of the anchored pattern `^[~∼]\s*` by the empty
string: remove one leading tilde-like character together with the
whitespace following it. -/
def tildeStrip (l : List Char) : List Char :=
  match l with
  | [] => []
  | c :: rest =>
    if c = '~' || c = tildeOp then rest.dropWhile isPythonSpace
    else c :: rest

/-- `WhatsappPreprocessor.normalize_author` restricted to string input
(`preprocess.py` lines 55-65): NFKC, zero-width removal, no-break-space
replacement, leading-tilde stripping, whitespace collapsing and final
strip, in source order. -/
def normalize_author (s : List Char) : List Char :=
  pyStrip (collapseWs (tildeStrip (nbspReplace (zwRemove (nfkc s)))))

/-- Does the string start with one of the tilde-like characters the
normalizer strips? -/
def startsWithTildeChar : List Char → Bool
  | [] => false
  | c :: _ => c = '~' || c = tildeOp

/-- One output row of `process`: the `(timestamp, author, message)`
tuple appended to `records`.  Timestamps are modelled as natural
numbers (the parsed datetime value). -/
structure Rec where
  ts : Nat
  author : List Char
  msg : List Char
deriving DecidableEq

/-- The three dialect matchers of `settings.BaseRegexes`, modelled as
capture functions: `timestamp l` is the first capture group of
`re.match(tsreg, l)` (`none` when the line does not match), and
`author`/`message` are the first capture groups of the corresponding
`re.search` calls (`none` when the search fails). -/
structure BaseRegexes where
  timestamp : List Char → Option (List Char)
  author : List Char → Option (List Char)
  message : List Char → Option (List Char)

/-- The configuration consumed by `WhatsappPreprocessor.process`:
the dialect matchers, the `datetime.strptime` call with the configured
`datetime_format` (modelled as a partial parse of the captured string),
and the `drop_authors` substring list. -/
structure PreprocessConfig where
  regexes : BaseRegexes
  parseDatetime : List Char → Option Nat
  dropAuthors : List (List Char)

/-- The loop state of `process`: the growing `records` list, the
`appended` diagnostics list, and the three Python loop locals
`timestamp`, `author` and `msg`, which persist across iterations and
are `none` until first assigned. -/
structure ParserState where
  records : List Rec
  appended : List Nat
  timestamp : Option Nat
  author : Option (List Char)
  msg : Option (List Char)
deriving DecidableEq

/-- The state at the top of `process`, before any line is read. -/
def initState : ParserState :=
  ⟨[], [], none, none, none⟩

/-- The author filter of `process` line 124:
`any(drop_author in author for drop_author in self.drop_authors)`,
where Python's `in` on strings is substring containment. -/
def authorDropped (drops : List (List Char)) (author : List Char) : Bool :=
  drops.any (fun d => decide (d <:+: author))

/-- One iteration of the `for line in f.readlines()` loop of
`WhatsappPreprocessor.process` (`preprocess.py` lines 98-132).  Each
`continue` of the source leaves the state built so far; note that the
loop locals `timestamp` and `author` keep the values assigned before
the `continue`, exactly as in Python. -/
def step (cfg : PreprocessConfig) (st : ParserState) (line : List Char) :
    ParserState :=
  match cfg.regexes.timestamp line with
  | some cap =>
    match cfg.parseDatetime cap with
    | none => st
    | some t =>
      let st := { st with timestamp := some t }
      match cfg.regexes.message line with
      | none => st
      | some msgCap =>
        match cfg.regexes.author line with
        | none => st
        | some authorCap =>
          let author := normalize_author (pyStrip authorCap)
          let st := { st with author := some author }
          if authorDropped cfg.dropAuthors author then st
          else
            let msg := pyStrip msgCap
            { st with
                msg := some msg,
                records := st.records ++ [⟨t, author, msg⟩] }
  | none =>
    if st.records.isEmpty then st
    else
      match st.timestamp, st.author, st.msg with
      | some t, some a, some m =>
        let m := m ++ ' ' :: pyStrip line
        { st with
            msg := some m,
            appended := st.appended ++ [t],
            records := st.records.dropLast ++ [⟨t, a, m⟩] }
      | _, _, _ => st

/-- `WhatsappPreprocessor.process`: fold the loop body over the input
lines and return the `(records, appended)` pair. -/
def process (cfg : PreprocessConfig) (lines : List (List Char)) :
    List Rec × List Nat :=
  let st := lines.foldl (step cfg) initState
  (st.records, st.appended)

/-- A concrete dialect used to evaluate the parser on closed inputs: a
header line is `t:author:message` with a one-character timestamp field.
The timestamp pattern matches a digit or the letter `X` before the
first colon; the author capture is the text between the first and
second colons; the message capture is the text after the second colon,
failing when there is no second colon. -/
def toyRegexes : BaseRegexes where
  timestamp l :=
    match l with
    | c :: ':' :: _ => if c.isDigit || c = 'X' then some [c] else none
    | _ => none
  author l :=
    match l with
    | _ :: ':' :: rest =>
      if rest.contains ':' then some (rest.takeWhile (fun c => c ≠ ':'))
      else none
    | _ => none
  message l :=
    match l with
    | _ :: ':' :: rest =>
      if rest.contains ':' then
        some ((rest.dropWhile (fun c => c ≠ ':')).tail)
      else none
    | _ => none

/-- A concrete datetime parse for the toy dialect: a single digit
parses to its value, anything else (such as `X`) fails. -/
def toyParse (cap : List Char) : Option Nat :=
  match cap with
  | [c] => if c.isDigit then some (c.toNat - 48) else none
  | _ => none

/-- Toy configuration with a given drop list. -/
def toyCfg (drops : List (List Char)) : PreprocessConfig :=
  ⟨toyRegexes, toyParse, drops⟩

/-- Decidable test that a list of timestamps is non-decreasing. -/
def nonDecreasing : List Nat → Bool
  | [] => true
  | [_] => true
  | a :: b :: rest => a ≤ b && nonDecreasing (b :: rest)

/-- A Python value as it can reach `normalize_author`, whose signature
annotation is not enforced at runtime: a string or one of the
non-string shapes that occur in a pandas column. -/
inductive PyVal where
  | str (s : List Char)
  | int (i : Int)
  | bool (b : Bool)
  | noneV
deriving DecidableEq

/-- `WhatsappPreprocessor.normalize_author` including the
`isinstance(name, str)` guard of lines 53-54: non-strings are returned
unchanged, strings go through the normalization pipeline. -/
def normalize_author_py : PyVal → PyVal
  | .str s => .str (normalize_author s)
  | v => v

/-- The four dialect regex bundles imported from `wa_analyzer.settings`
(androidRegexes, iosRegexes, oldRegexes, csvRegexes), represented as
distinct named constants; their pattern contents are irrelevant to the
selection logic. -/
inductive DeviceRegexes where
  | androidRegexes
  | iosRegexes
  | oldRegexes
  | csvRegexes
deriving DecidableEq

/-- Models Python `str.lower` on the ASCII letters (the only characters
compared against by the selection logic). -/
def lowerChar (c : Char) : Char :=
  if 'A' ≤ c && c ≤ 'Z' then Char.ofNat (c.toNat + 32) else c

/-- Lowercasing of a whole selector string (`device.lower()`). -/
def lowerStr (l : List Char) : List Char :=
  l.map lowerChar

/-- The dialect selection chain of `main` (`preprocess.py` lines
152-163): compare the lowercased selector against `ios`, `old` and
`csv`, in that order, and fall back to the Android bundle. -/
def selectRegexes (device : List Char) : DeviceRegexes :=
  if lowerStr device = "ios".toList then .iosRegexes
  else if lowerStr device = "old".toList then .oldRegexes
  else if lowerStr device = "csv".toList then .csvRegexes
  else .androidRegexes

/-- The message built from an initial capture and a block of
continuation lines: each continuation contributes one space plus its
stripped text, in order. -/
def msgJoin (m : List Char) (conts : List (List Char)) : List Char :=
  conts.foldl (fun acc l => acc ++ ' ' :: pyStrip l) m

/-- The timestamps that successfully parse over an input, in line
order, including those of lines discarded at a later stage. -/
def parsedTs (cfg : PreprocessConfig) (lines : List (List Char)) :
    List Nat :=
  lines.filterMap (fun l => (cfg.regexes.timestamp l).bind cfg.parseDatetime)

/-- Invariant carried through the loop: the produced timestamps are
non-decreasing, and the `timestamp` loop local (when bound) dominates
the last record and starts a non-decreasing run with the timestamps
still to be parsed. -/
def localInv (cfg : PreprocessConfig) (st : ParserState)
    (rest : List (List Char)) : Prop :=
  nonDecreasing (st.records.map Rec.ts) = true ∧
  ((st.timestamp = none ∧ st.records = [] ∧
      nonDecreasing (parsedTs cfg rest) = true) ∨
   (∃ t, st.timestamp = some t ∧
      (∀ r ∈ st.records.getLast?, r.ts ≤ t) ∧
      nonDecreasing (t :: parsedTs cfg rest) = true))

/-- No two adjacent characters are both whitespace. -/
def noTwoSpaces : List Char → Bool
  | [] => true
  | [_] => true
  | a :: b :: rest => !(isPythonSpace a && isPythonSpace b) && noTwoSpaces (b :: rest)

/-- The last character, if any, is not whitespace. -/
def endsNoSpace : List Char → Bool
  | [] => true
  | [c] => !isPythonSpace c
  | _ :: b :: rest => endsNoSpace (b :: rest)

example : normalize_author "~~a".toList = "~a".toList := by decide

example : normalize_author "~a".toList = "a".toList := by decide

example : normalize_author "~ Jane​ Doe".toList = "Jane Doe".toList := by
  decide

example :
    (process (toyCfg []) ["1:A:hi".toList, "w".toList]).1
      = [⟨1, "A".toList, "hi w".toList⟩] := by decide

example :
    (process (toyCfg ["B".toList])
        ["1:A:hi".toList, "2:B:yo".toList, "x".toList]).1
      = [⟨2, "B".toList, "hi x".toList⟩] := by decide

example :
    (process (toyCfg [])
        ["1:A:hi".toList, "2:nocolon".toList, "x".toList]).1
      = [⟨2, "A".toList, "hi x".toList⟩] := by decide

/-- C1: on the input `1:A:hi`, `2:B:yo` (author `B` filtered), `x`, the
record before the continuation line is `(1, A, hi)`, and processing the
continuation line `x` rewrites its author and timestamp to the values
leaked from the discarded line: the claim that a continuation line can
only change the most recent record's message is false on the code. -/
theorem continuation_rewrites_author_and_timestamp :
    (process (toyCfg ["B".toList]) ["1:A:hi".toList, "2:B:yo".toList]).1
      = [⟨1, "A".toList, "hi".toList⟩] ∧
    (process (toyCfg ["B".toList])
        ["1:A:hi".toList, "2:B:yo".toList, "x".toList]).1
      = [⟨2, "B".toList, "hi x".toList⟩] := by decide

/-- C2: the author `B` is matched by the drop filter, yet after the
filtered line `2:B:yo` is followed by the continuation line `x`, the
output contains a record whose author is `B`: filtered authors do leak
into the output through the continuation rewrite. -/
theorem dropped_author_appears_in_output :
    authorDropped ["B".toList] (normalize_author "B".toList) = true ∧
    ((process (toyCfg ["B".toList])
        ["1:A:hi".toList, "2:B:yo".toList, "x".toList]).1.map Rec.author)
      = ["B".toList] := by decide

/-- C3: the line `2:nocolon` matches the timestamp pattern and fails
message extraction, so it is discarded, yet it leaks its parsed
timestamp `2` into the loop locals, and the next continuation line
rewrites the existing record's timestamp from `1` to `2`: a discarded
header line does affect how subsequent continuation lines are merged. -/
theorem discarded_header_leaks_timestamp :
    toyRegexes.timestamp "2:nocolon".toList = some ['2'] ∧
    toyRegexes.message "2:nocolon".toList = none ∧
    (process (toyCfg []) ["1:A:hi".toList, "2:nocolon".toList, "x".toList]).1
      = [⟨2, "A".toList, "hi x".toList⟩] := by decide

/-- C4 counterexample: `normalize_author` is not idempotent.  On `~~a`
the tilde-stripping step removes one tilde per application, so the
first application yields `~a` and the second `a`; and on the letter
`e` followed by a zero-width joiner and a combining acute, the first
application removes the joiner leaving `e` plus the accent, which the
second application's NFKC pass composes to the precomposed letter. -/
theorem normalize_author_not_idempotent :
    (normalize_author (normalize_author "~~a".toList)
      ≠ normalize_author "~~a".toList) ∧
    (normalize_author
        (normalize_author ['e', '\u200D', '\u0301'])
      ≠ normalize_author ['e', '\u200D', '\u0301']) := by decide

/-- C9 counterexample: the parser performs no ordering check, so the
input `5:A:m`, `3:B:n` yields records with timestamps `[5, 3]`, which
are not non-decreasing. -/
theorem process_timestamps_can_decrease :
    nonDecreasing
        ((process (toyCfg []) ["5:A:m".toList, "3:B:n".toList]).1.map
          Rec.ts) = false := by decide

/-- C7: the author filter fires exactly when some configured
drop-substring is a substring of the normalized author, and an empty
drop list never excludes anyone. -/
theorem authorDropped_iff_substring (D : List (List Char)) (a : List Char) :
    (authorDropped D a = true ↔ ∃ d ∈ D, d <:+: a) ∧
    (D = [] → authorDropped D a = false) := by
  constructor
  · simp [authorDropped]
  · rintro rfl; rfl

/-- Witness for the author-filter characterization: with an empty drop
list, the author `Alice` is not excluded. -/
theorem authorDropped_iff_substring_witness :
    authorDropped [] "Alice".toList = false :=
  (authorDropped_iff_substring [] "Alice".toList).2 rfl

/-- C10: a non-string input value passes through `normalize_author`
unchanged, with none of the pipeline steps applied. -/
theorem normalize_author_py_nonstring (v : PyVal)
    (h : ∀ s, v ≠ PyVal.str s) : normalize_author_py v = v := by
  cases v with
  | str s => exact absurd rfl (h s)
  | int i => rfl
  | bool b => rfl
  | noneV => rfl

/-- Witness: the integer value `3` is returned unchanged. -/
theorem normalize_author_py_nonstring_witness :
    normalize_author_py (PyVal.int 3) = PyVal.int 3 :=
  normalize_author_py_nonstring (PyVal.int 3) (fun _ h => PyVal.noConfusion h)

/-- C8: dialect selection is case-insensitive (selectors equal after
lowercasing select the same bundle), every selector whose lowercase
form is none of `ios`, `old`, `csv` selects the Android bundle, and the
four canonical selectors pick their own bundles. -/
theorem selectRegexes_spec (d₁ d₂ : List Char) :
    (lowerStr d₁ = lowerStr d₂ → selectRegexes d₁ = selectRegexes d₂) ∧
    (lowerStr d₁ ≠ "ios".toList → lowerStr d₁ ≠ "old".toList →
      lowerStr d₁ ≠ "csv".toList →
      selectRegexes d₁ = DeviceRegexes.androidRegexes) ∧
    (selectRegexes "ios".toList = DeviceRegexes.iosRegexes ∧
     selectRegexes "old".toList = DeviceRegexes.oldRegexes ∧
     selectRegexes "csv".toList = DeviceRegexes.csvRegexes ∧
     selectRegexes "android".toList = DeviceRegexes.androidRegexes) := by
  refine ⟨?_, ?_, by decide⟩
  · intro h
    simp only [selectRegexes, h]
  · intro h1 h2 h3
    simp only [selectRegexes, if_neg h1, if_neg h2, if_neg h3]

/-- Witness for dialect selection: `iOS` and `IOS` lowercase equally
and select the iOS bundle alike, and the unrecognized selector `Web`
falls back to the Android bundle. -/
theorem selectRegexes_spec_witness :
    (lowerStr "iOS".toList = lowerStr "IOS".toList ∧
      selectRegexes "iOS".toList = selectRegexes "IOS".toList) ∧
    selectRegexes "Web".toList = DeviceRegexes.androidRegexes :=
  ⟨⟨by decide, (selectRegexes_spec "iOS".toList "IOS".toList).1 (by decide)⟩,
    (selectRegexes_spec "Web".toList "Web".toList).2.1
      (by decide) (by decide) (by decide)⟩

/-- A line whose captured timestamp fails to parse leaves the loop
state untouched: the assignment to `timestamp` raises before binding,
and the `continue` skips the rest of the body. -/
theorem step_parse_none (cfg : PreprocessConfig) (st : ParserState)
    (l cap : List Char) (h1 : cfg.regexes.timestamp l = some cap)
    (h2 : cfg.parseDatetime cap = none) : step cfg st l = st := by
  simp [step, h1, h2]

/-- A header line that parses but fails message extraction only updates
the `timestamp` loop local. -/
theorem step_msg_none (cfg : PreprocessConfig) (st : ParserState)
    (l cap : List Char) (t : Nat) (h1 : cfg.regexes.timestamp l = some cap)
    (h2 : cfg.parseDatetime cap = some t)
    (h3 : cfg.regexes.message l = none) :
    step cfg st l = { st with timestamp := some t } := by
  simp [step, h1, h2, h3]

/-- A header line that parses but fails author extraction only updates
the `timestamp` loop local. -/
theorem step_author_none (cfg : PreprocessConfig) (st : ParserState)
    (l cap msgCap : List Char) (t : Nat)
    (h1 : cfg.regexes.timestamp l = some cap)
    (h2 : cfg.parseDatetime cap = some t)
    (h3 : cfg.regexes.message l = some msgCap)
    (h4 : cfg.regexes.author l = none) :
    step cfg st l = { st with timestamp := some t } := by
  simp [step, h1, h2, h3, h4]

/-- A header line whose normalized author is filtered updates the
`timestamp` and `author` loop locals but appends no record. -/
theorem step_filtered (cfg : PreprocessConfig) (st : ParserState)
    (l cap msgCap authorCap : List Char) (t : Nat)
    (h1 : cfg.regexes.timestamp l = some cap)
    (h2 : cfg.parseDatetime cap = some t)
    (h3 : cfg.regexes.message l = some msgCap)
    (h4 : cfg.regexes.author l = some authorCap)
    (h5 : authorDropped cfg.dropAuthors
        (normalize_author (pyStrip authorCap)) = true) :
    step cfg st l
      = { st with
            timestamp := some t,
            author := some (normalize_author (pyStrip authorCap)) } := by
  simp [step, h1, h2, h3, h4, h5]

/-- A fully accepted header line sets all three loop locals and appends
a new record. -/
theorem step_accept (cfg : PreprocessConfig) (st : ParserState)
    (l cap msgCap authorCap : List Char) (t : Nat)
    (h1 : cfg.regexes.timestamp l = some cap)
    (h2 : cfg.parseDatetime cap = some t)
    (h3 : cfg.regexes.message l = some msgCap)
    (h4 : cfg.regexes.author l = some authorCap)
    (h5 : authorDropped cfg.dropAuthors
        (normalize_author (pyStrip authorCap)) = false) :
    step cfg st l
      = { st with
            timestamp := some t,
            author := some (normalize_author (pyStrip authorCap)),
            msg := some (pyStrip msgCap),
            records :=
              st.records
                ++ [⟨t, normalize_author (pyStrip authorCap),
                     pyStrip msgCap⟩] } := by
  simp [step, h1, h2, h3, h4, h5]

/-- A non-header line seen before any record exists is ignored. -/
theorem step_cont_empty (cfg : PreprocessConfig) (st : ParserState)
    (l : List Char) (h1 : cfg.regexes.timestamp l = none)
    (he : st.records.isEmpty = true) : step cfg st l = st := by
  simp [step, h1, he]

/-- A continuation line seen while records exist rewrites the last
record from the three loop locals, appending the stripped line text to
the `msg` local. -/
theorem step_cont (cfg : PreprocessConfig) (st : ParserState)
    (l : List Char) (t : Nat) (a m : List Char)
    (h1 : cfg.regexes.timestamp l = none)
    (he : st.records.isEmpty = false)
    (ht : st.timestamp = some t) (ha : st.author = some a)
    (hm : st.msg = some m) :
    step cfg st l
      = { st with
            msg := some (m ++ ' ' :: pyStrip l),
            appended := st.appended ++ [t],
            records :=
              st.records.dropLast ++ [⟨t, a, m ++ ' ' :: pyStrip l⟩] } := by
  simp [step, h1, he, ht, ha, hm]

/-- C6: a line matching the timestamp pattern whose captured timestamp
string is unparsable is a no-op on the parser state: it creates no
record, leaves every loop local unchanged, and removing it from the
input leaves the whole output unchanged, so subsequent continuation
lines merge exactly as they would have without it. -/
theorem unparsable_timestamp_no_effect (cfg : PreprocessConfig)
    (pre post : List (List Char)) (l cap : List Char)
    (h1 : cfg.regexes.timestamp l = some cap)
    (h2 : cfg.parseDatetime cap = none) :
    (∀ st, step cfg st l = st) ∧
    process cfg (pre ++ l :: post) = process cfg (pre ++ post) := by
  refine ⟨fun st => step_parse_none cfg st l cap h1 h2, ?_⟩
  simp [process, List.foldl_append, step_parse_none cfg _ l cap h1 h2]

/-- Witness for the unparsable-timestamp claim: in the toy dialect the
line `X:A:hi` matches the timestamp pattern, `X` fails to parse, and
dropping the line does not change the output. -/
theorem unparsable_timestamp_no_effect_witness :
    step (toyCfg []) initState "X:A:hi".toList = initState ∧
    process (toyCfg [])
        (["1:A:hi".toList] ++ "X:A:hi".toList :: ["w".toList])
      = process (toyCfg []) (["1:A:hi".toList] ++ ["w".toList]) := by
  have h := unparsable_timestamp_no_effect (toyCfg []) ["1:A:hi".toList]
    ["w".toList] "X:A:hi".toList ['X'] (by decide) (by decide)
  exact ⟨h.1 initState, h.2⟩

/-- Folding a block of non-header lines from a state whose last record
agrees with the three loop locals extends that record's message by the
stripped line texts, one space before each. -/
theorem foldl_cont_block (cfg : PreprocessConfig) :
    ∀ (conts : List (List Char)),
      (∀ l ∈ conts, cfg.regexes.timestamp l = none) →
      ∀ (base : List Rec) (ap : List Nat) (t : Nat) (a m : List Char),
        conts.foldl (step cfg)
            ⟨base ++ [⟨t, a, m⟩], ap, some t, some a, some m⟩
          = ⟨base ++ [⟨t, a, msgJoin m conts⟩],
             ap ++ List.replicate conts.length t,
             some t, some a, some (msgJoin m conts)⟩ := by
  intro conts
  induction conts with
  | nil =>
    intro _ base ap t a m
    simp [msgJoin]
  | cons l rest ih =>
    intro hc base ap t a m
    have h1 : cfg.regexes.timestamp l = none := hc l (by simp)
    have hstep :
        step cfg ⟨base ++ [⟨t, a, m⟩], ap, some t, some a, some m⟩ l
          = ⟨base ++ [⟨t, a, m ++ ' ' :: pyStrip l⟩], ap ++ [t],
             some t, some a, some (m ++ ' ' :: pyStrip l)⟩ := by
      have := step_cont cfg ⟨base ++ [⟨t, a, m⟩], ap, some t, some a, some m⟩
        l t a m h1 (by simp) rfl rfl rfl
      simpa using this
    rw [List.foldl_cons, hstep,
      ih (fun x hx => hc x (by simp [hx])) base (ap ++ [t]) t a
        (m ++ ' ' :: pyStrip l)]
    have hj : msgJoin m (l :: rest) = msgJoin (m ++ ' ' :: pyStrip l) rest :=
      rfl
    simp [hj, List.replicate_succ, List.append_assoc]

/-- C5: a fully accepted header line followed by `k` non-header lines
produces one record whose message is the stripped message capture of
the header followed by the stripped continuation texts, each joined by
exactly one space, with the header's timestamp and normalized author. -/
theorem continuation_merging_correct (cfg : PreprocessConfig)
    (pre : List (List Char)) (h : List Char) (conts : List (List Char))
    (cap msgCap authorCap : List Char) (t : Nat)
    (h1 : cfg.regexes.timestamp h = some cap)
    (h2 : cfg.parseDatetime cap = some t)
    (h3 : cfg.regexes.message h = some msgCap)
    (h4 : cfg.regexes.author h = some authorCap)
    (h5 : authorDropped cfg.dropAuthors
        (normalize_author (pyStrip authorCap)) = false)
    (h6 : ∀ l ∈ conts, cfg.regexes.timestamp l = none) :
    (process cfg (pre ++ h :: conts)).1
      = (process cfg pre).1
        ++ [⟨t, normalize_author (pyStrip authorCap),
             msgJoin (pyStrip msgCap) conts⟩] := by
  unfold process
  simp only [List.foldl_append, List.foldl_cons]
  rw [step_accept cfg (pre.foldl (step cfg) initState) h cap msgCap authorCap
    t h1 h2 h3 h4 h5]
  rw [show
    ({ pre.foldl (step cfg) initState with
        timestamp := some t,
        author := some (normalize_author (pyStrip authorCap)),
        msg := some (pyStrip msgCap),
        records :=
          (pre.foldl (step cfg) initState).records
            ++ [⟨t, normalize_author (pyStrip authorCap),
                 pyStrip msgCap⟩] } : ParserState)
      = ⟨(pre.foldl (step cfg) initState).records
          ++ [⟨t, normalize_author (pyStrip authorCap), pyStrip msgCap⟩],
         (pre.foldl (step cfg) initState).appended,
         some t, some (normalize_author (pyStrip authorCap)),
         some (pyStrip msgCap)⟩ from rfl]
  rw [foldl_cont_block cfg conts h6]

/-- Witness for continuation correctness: after the header `1:A:hi`
and the continuation lines `w1` and ` w2 `, the record's message is
`hi w1 w2`. -/
theorem continuation_merging_correct_witness :
    (process (toyCfg [])
        (["0:Z:pre".toList]
          ++ "1:A:hi".toList :: ["w1".toList, " w2 ".toList])).1
      = (process (toyCfg []) ["0:Z:pre".toList]).1
        ++ [⟨1, normalize_author (pyStrip "A".toList),
             msgJoin (pyStrip "hi".toList)
               ["w1".toList, " w2 ".toList]⟩] :=
  continuation_merging_correct (toyCfg []) ["0:Z:pre".toList]
    "1:A:hi".toList ["w1".toList, " w2 ".toList] ['1'] "hi".toList
    "A".toList 1 (by decide) (by decide) (by decide) (by decide)
    (by decide) (by decide)

/-- Reflexivity of the list-extension relation, stated directly. -/
theorem preRefl {α : Type} (l : List α) : l <+: l :=
  ⟨[], List.append_nil l⟩

/-- Transitivity of the list-extension relation, stated directly. -/
theorem preTrans {α : Type} {a b c : List α} (h1 : a <+: b)
    (h2 : b <+: c) : a <+: c := by
  obtain ⟨t1, ht1⟩ := h1
  obtain ⟨t2, ht2⟩ := h2
  exact ⟨t1 ++ t2, by rw [← List.append_assoc, ht1, ht2]⟩

/-- Removing the last element of a list leaves an initial segment. -/
theorem dropLastPre {α : Type} (l : List α) : l.dropLast <+: l :=
  ⟨l.drop (l.length - 1), by rw [List.dropLast_eq_take, List.take_append_drop]⟩

/-- A non-header line encountered while the records list is non-empty
but not all loop locals are bound leaves the state unchanged (this
situation never arises from `initState`, but the model is total). -/
theorem step_cont_stuck (cfg : PreprocessConfig) (st : ParserState)
    (l : List Char) (h1 : cfg.regexes.timestamp l = none)
    (he : st.records.isEmpty = false)
    (hstuck : st.timestamp = none ∨ st.author = none ∨ st.msg = none) :
    step cfg st l = st := by
  cases ht : st.timestamp with
  | none => simp [step, h1, he, ht]
  | some t =>
    cases ha : st.author with
    | none => simp [step, h1, he, ht, ha]
    | some a =>
      cases hm : st.msg with
      | none => simp [step, h1, he, ht, ha, hm]
      | some m =>
        rcases hstuck with h | h | h
        · rw [ht] at h; exact absurd h (by simp)
        · rw [ha] at h; exact absurd h (by simp)
        · rw [hm] at h; exact absurd h (by simp)

/-- One loop iteration never touches any record other than the last:
the records list with its last element removed only ever grows. -/
theorem step_dropLast_extends (cfg : PreprocessConfig) (st : ParserState)
    (l : List Char) :
    st.records.dropLast <+: (step cfg st l).records.dropLast := by
  cases h1 : cfg.regexes.timestamp l with
  | some cap =>
    cases h2 : cfg.parseDatetime cap with
    | none => rw [step_parse_none cfg st l cap h1 h2]
    | some t =>
      cases h3 : cfg.regexes.message l with
      | none => rw [step_msg_none cfg st l cap t h1 h2 h3]
      | some msgCap =>
        cases h4 : cfg.regexes.author l with
        | none =>
          rw [step_author_none cfg st l cap msgCap t h1 h2 h3 h4]
        | some authorCap =>
          cases h5 : authorDropped cfg.dropAuthors
              (normalize_author (pyStrip authorCap)) with
          | true =>
            rw [step_filtered cfg st l cap msgCap authorCap t h1 h2 h3 h4 h5]
          | false =>
            rw [step_accept cfg st l cap msgCap authorCap t h1 h2 h3 h4 h5]
            show st.records.dropLast <+: (st.records ++ [_]).dropLast
            rw [List.dropLast_concat]
            exact dropLastPre _
  | none =>
    cases he : st.records.isEmpty with
    | true => rw [step_cont_empty cfg st l h1 he]
    | false =>
      cases ht : st.timestamp with
      | none => rw [step_cont_stuck cfg st l h1 he (Or.inl ht)]
      | some t =>
        cases ha : st.author with
        | none =>
          rw [step_cont_stuck cfg st l h1 he (Or.inr (Or.inl ha))]
        | some a =>
          cases hm : st.msg with
          | none =>
            rw [step_cont_stuck cfg st l h1 he (Or.inr (Or.inr hm))]
          | some m =>
            rw [step_cont cfg st l t a m h1 he ht ha hm]
            show st.records.dropLast
              <+: (st.records.dropLast ++ [_]).dropLast
            rw [List.dropLast_concat]

/-- Folding any block of lines only ever extends the records list with
its last element removed. -/
theorem foldl_dropLast_extends (cfg : PreprocessConfig) :
    ∀ (lines : List (List Char)) (st : ParserState),
      st.records.dropLast <+: ((lines.foldl (step cfg) st).records).dropLast
  | [], _ => preRefl _
  | l :: rest, st =>
    preTrans (step_dropLast_extends cfg st l)
      (foldl_dropLast_extends cfg rest (step cfg st l))

/-- Dropping the head of a non-decreasing list keeps it non-decreasing. -/
theorem nonDecreasing_tail {a : Nat} {l : List Nat}
    (h : nonDecreasing (a :: l) = true) : nonDecreasing l = true := by
  cases l with
  | nil => rfl
  | cons b rest =>
    simp only [nonDecreasing, Bool.and_eq_true] at h
    exact h.2

/-- The first two entries of a non-decreasing list are ordered. -/
theorem nonDecreasing_head {a b : Nat} {l : List Nat}
    (h : nonDecreasing (a :: b :: l) = true) : a ≤ b := by
  simp only [nonDecreasing, Bool.and_eq_true, decide_eq_true_eq] at h
  exact h.1

/-- Appending an upper bound to a non-decreasing list keeps it
non-decreasing. -/
theorem nonDecreasing_concat {xs : List Nat} {y : Nat}
    (h : nonDecreasing xs = true)
    (hl : ∀ z ∈ xs.getLast?, z ≤ y) :
    nonDecreasing (xs ++ [y]) = true := by
  induction xs with
  | nil => rfl
  | cons a rest ih =>
    cases rest with
    | nil =>
      have hay : a ≤ y := hl a (by simp)
      simp [nonDecreasing, hay]
    | cons b rest' =>
      have h1 : a ≤ b := nonDecreasing_head h
      have h2 := ih (nonDecreasing_tail h)
        (by simpa [List.getLast?_cons_cons] using hl)
      show nonDecreasing (a :: b :: (rest' ++ [y])) = true
      simp only [nonDecreasing, Bool.and_eq_true, decide_eq_true_eq]
      exact ⟨h1, h2⟩

/-- Replacing the last element of a non-empty non-decreasing list by an
upper bound keeps it non-decreasing. -/
theorem nonDecreasing_dropLast_concat :
    ∀ {xs : List Nat} {y : Nat}, xs ≠ [] →
      nonDecreasing xs = true → (∀ z ∈ xs.getLast?, z ≤ y) →
      nonDecreasing (xs.dropLast ++ [y]) = true := by
  intro xs
  induction xs with
  | nil => intro y hne; exact absurd rfl hne
  | cons a rest ih =>
    intro y _ h hl
    cases rest with
    | nil => simp [nonDecreasing]
    | cons b rest' =>
      have htail := ih (by simp) (nonDecreasing_tail h)
        (by simpa [List.getLast?_cons_cons] using hl)
      cases rest' with
      | nil =>
        have hab : a ≤ b := nonDecreasing_head h
        have hby : b ≤ y := hl b (by simp)
        simp [nonDecreasing, le_trans hab hby]
      | cons c rest'' =>
        have hab : a ≤ b := nonDecreasing_head h
        show nonDecreasing
            (a :: ((b :: c :: rest'').dropLast ++ [y])) = true
        have hshape : (b :: c :: rest'').dropLast
            = b :: (c :: rest'').dropLast := rfl
        rw [hshape]
        show nonDecreasing
            (a :: b :: ((c :: rest'').dropLast ++ [y])) = true
        simp only [nonDecreasing, Bool.and_eq_true, decide_eq_true_eq]
        refine ⟨hab, ?_⟩
        rw [hshape] at htail
        exact htail

/-- One loop iteration preserves the invariant. -/
theorem localInv_step (cfg : PreprocessConfig) (st : ParserState)
    (l : List Char) (rest : List (List Char))
    (h : localInv cfg st (l :: rest)) :
    localInv cfg (step cfg st l) rest := by
  obtain ⟨hnd, hdisj⟩ := h
  cases h1 : cfg.regexes.timestamp l with
  | some cap =>
    cases h2 : cfg.parseDatetime cap with
    | none =>
      have hp : parsedTs cfg (l :: rest) = parsedTs cfg rest := by
        simp [parsedTs, h1, h2]
      rw [step_parse_none cfg st l cap h1 h2]
      rw [hp] at hdisj
      exact ⟨hnd, hdisj⟩
    | some t =>
      have hp : parsedTs cfg (l :: rest) = t :: parsedTs cfg rest := by
        simp [parsedTs, h1, h2]
      rw [hp] at hdisj
      have key : (∀ r ∈ st.records.getLast?, r.ts ≤ t) ∧
          nonDecreasing (t :: parsedTs cfg rest) = true := by
        rcases hdisj with ⟨_, hrec0, hnd0⟩ | ⟨t0, _, hlast0, hnd0⟩
        · exact ⟨by simp [hrec0], hnd0⟩
        · exact ⟨fun r hr => le_trans (hlast0 r hr) (nonDecreasing_head hnd0),
            nonDecreasing_tail hnd0⟩
      cases h3 : cfg.regexes.message l with
      | none =>
        rw [step_msg_none cfg st l cap t h1 h2 h3]
        exact ⟨hnd, Or.inr ⟨t, rfl, key.1, key.2⟩⟩
      | some msgCap =>
        cases h4 : cfg.regexes.author l with
        | none =>
          rw [step_author_none cfg st l cap msgCap t h1 h2 h3 h4]
          exact ⟨hnd, Or.inr ⟨t, rfl, key.1, key.2⟩⟩
        | some authorCap =>
          cases h5 : authorDropped cfg.dropAuthors
              (normalize_author (pyStrip authorCap)) with
          | true =>
            rw [step_filtered cfg st l cap msgCap authorCap t h1 h2 h3 h4 h5]
            exact ⟨hnd, Or.inr ⟨t, rfl, key.1, key.2⟩⟩
          | false =>
            rw [step_accept cfg st l cap msgCap authorCap t h1 h2 h3 h4 h5]
            constructor
            · show nonDecreasing
                ((st.records
                  ++ [(⟨t, normalize_author (pyStrip authorCap),
                        pyStrip msgCap⟩ : Rec)]).map Rec.ts) = true
              rw [List.map_append]
              exact nonDecreasing_concat hnd
                (by
                  intro z hz
                  rw [List.getLast?_map] at hz
                  cases hlr : st.records.getLast? with
                  | none => rw [hlr] at hz; exact absurd hz (by simp)
                  | some r =>
                    rw [hlr] at hz
                    simp only [Option.map_some', Option.mem_def,
                      Option.some.injEq] at hz
                    subst hz
                    exact key.1 r (by rw [hlr]; rfl))
            · refine Or.inr ⟨t, rfl, ?_, key.2⟩
              intro r hr
              show r.ts ≤ t
              have : (st.records ++ [(⟨t, normalize_author (pyStrip authorCap),
                  pyStrip msgCap⟩ : Rec)]).getLast?
                  = some ⟨t, normalize_author (pyStrip authorCap),
                      pyStrip msgCap⟩ := by simp
              rw [this] at hr
              cases hr
              rfl
  | none =>
    have hp : parsedTs cfg (l :: rest) = parsedTs cfg rest := by
      simp [parsedTs, h1]
    rw [hp] at hdisj
    cases he : st.records.isEmpty with
    | true =>
      rw [step_cont_empty cfg st l h1 he]
      exact ⟨hnd, hdisj⟩
    | false =>
      have hne : st.records ≠ [] := by simp_all
      rcases hdisj with ⟨_, hrec0, _⟩ | ⟨t0, hts0, hlast0, hnd0⟩
      · exact absurd hrec0 hne
      cases ha : st.author with
      | none =>
        rw [step_cont_stuck cfg st l h1 he (Or.inr (Or.inl ha))]
        exact ⟨hnd, Or.inr ⟨t0, hts0, hlast0, hnd0⟩⟩
      | some a =>
        cases hm : st.msg with
        | none =>
          rw [step_cont_stuck cfg st l h1 he (Or.inr (Or.inr hm))]
          exact ⟨hnd, Or.inr ⟨t0, hts0, hlast0, hnd0⟩⟩
        | some m =>
          rw [step_cont cfg st l t0 a m h1 he hts0 ha hm]
          constructor
          · show nonDecreasing
              ((st.records.dropLast
                ++ [(⟨t0, a, m ++ ' ' :: pyStrip l⟩ : Rec)]).map
                Rec.ts) = true
            rw [List.map_append, List.map_dropLast]
            exact nonDecreasing_dropLast_concat
              (by simpa using hne) hnd
              (by
                intro z hz
                rw [List.getLast?_map] at hz
                cases hlr : st.records.getLast? with
                | none => rw [hlr] at hz; exact absurd hz (by simp)
                | some r =>
                  rw [hlr] at hz
                  simp only [Option.map_some', Option.mem_def,
                    Option.some.injEq] at hz
                  subst hz
                  exact hlast0 r (by rw [hlr]; rfl))
          · refine Or.inr ⟨t0, hts0, ?_, hnd0⟩
            intro r hr
            show r.ts ≤ t0
            have : (st.records.dropLast
                ++ [(⟨t0, a, m ++ ' ' :: pyStrip l⟩ : Rec)]).getLast?
                = some ⟨t0, a, m ++ ' ' :: pyStrip l⟩ := by simp
            rw [this] at hr
            cases hr
            rfl

/-- Folding the loop from an invariant state yields non-decreasing
output timestamps. -/
theorem localInv_foldl (cfg : PreprocessConfig) :
    ∀ (lines : List (List Char)) (st : ParserState),
      localInv cfg st lines →
      nonDecreasing (((lines.foldl (step cfg) st)).records.map Rec.ts)
        = true
  | [], _, h => h.1
  | l :: rest, st, h =>
    localInv_foldl cfg rest (step cfg st l) (localInv_step cfg st l rest h)

/-- C9 (amended): unconditionally, records already produced, except the
most recent one, are never altered or reordered by processing further
lines (the output up to its last record is an initial segment of every
later output); and the output timestamps are non-decreasing provided
the successfully parsed timestamps of the input's timestamp-matching
lines are non-decreasing in line order. -/
theorem process_order_and_monotone (cfg : PreprocessConfig)
    (pre more : List (List Char)) :
    ((process cfg pre).1.dropLast <+: (process cfg (pre ++ more)).1) ∧
    (nonDecreasing (parsedTs cfg (pre ++ more)) = true →
      nonDecreasing ((process cfg (pre ++ more)).1.map Rec.ts) = true) := by
  constructor
  · show ((pre.foldl (step cfg) initState).records).dropLast
      <+: (((pre ++ more).foldl (step cfg) initState).records)
    rw [List.foldl_append]
    exact preTrans
      (foldl_dropLast_extends cfg more (pre.foldl (step cfg) initState))
      (dropLastPre _)
  · intro H
    exact localInv_foldl cfg (pre ++ more) initState
      ⟨rfl, Or.inl ⟨rfl, rfl, H⟩⟩

/-- Witness for order preservation and conditional monotonicity: the
input `1:A:hi`, `2:B:yo` has parsed timestamps `[1, 2]`, and the
theorem yields the segment property and non-decreasing output
timestamps there. -/
theorem process_order_and_monotone_witness :
    ((process (toyCfg []) ["1:A:hi".toList]).1.dropLast
        <+: (process (toyCfg [])
              (["1:A:hi".toList] ++ ["2:B:yo".toList])).1) ∧
    nonDecreasing
        (parsedTs (toyCfg []) (["1:A:hi".toList] ++ ["2:B:yo".toList]))
      = true ∧
    nonDecreasing
        ((process (toyCfg [])
            (["1:A:hi".toList] ++ ["2:B:yo".toList])).1.map Rec.ts)
      = true :=
  ⟨(process_order_and_monotone (toyCfg []) ["1:A:hi".toList]
      ["2:B:yo".toList]).1,
    by decide,
    (process_order_and_monotone (toyCfg []) ["1:A:hi".toList]
      ["2:B:yo".toList]).2 (by decide)⟩

/-- Members of `dropTrailing l` are members of `l`. -/
theorem mem_dropTrailing {c : Char} :
    ∀ {l : List Char}, c ∈ dropTrailing l → c ∈ l := by
  intro l
  induction l with
  | nil => intro h; exact absurd h (by simp [dropTrailing])
  | cons a rest ih =>
    intro h
    cases hdt : dropTrailing rest with
    | nil =>
      rw [show dropTrailing (a :: rest)
          = if isPythonSpace a then [] else [a] from by
        simp [dropTrailing, hdt]] at h
      by_cases hs : isPythonSpace a = true
      · rw [if_pos hs] at h; exact absurd h (by simp)
      · rw [if_neg hs] at h
        simp only [List.mem_singleton] at h
        simp [h]
    | cons d r' =>
      rw [show dropTrailing (a :: rest) = a :: d :: r' from by
        simp [dropTrailing, hdt]] at h
      rcases List.mem_cons.mp h with rfl | h2
      · exact List.mem_cons_self _ _
      · exact List.mem_cons_of_mem _ (ih (by rw [hdt]; exact h2))

/-- Members of `pyStrip l` are members of `l`. -/
theorem mem_pyStrip {c : Char} {l : List Char} (h : c ∈ pyStrip l) : c ∈ l :=
  (List.dropWhile_sublist _).subset (mem_dropTrailing h)

/-- Every character of a collapsed string is either the plain space or
a non-whitespace character of the input. -/
theorem mem_collapseAux {c : Char} :
    ∀ (l : List Char) (b : Bool), c ∈ collapseAux b l →
      c = ' ' ∨ (c ∈ l ∧ isPythonSpace c = false) := by
  intro l
  induction l with
  | nil => intro b h; exact absurd h (by simp [collapseAux])
  | cons a rest ih =>
    intro b h
    by_cases hs : isPythonSpace a = true
    · cases b with
      | true =>
        rw [show collapseAux true (a :: rest) = collapseAux true rest from by
          simp [collapseAux, hs]] at h
        rcases ih true h with h1 | ⟨h2, h3⟩
        · exact Or.inl h1
        · exact Or.inr ⟨List.mem_cons_of_mem _ h2, h3⟩
      | false =>
        rw [show collapseAux false (a :: rest)
            = ' ' :: collapseAux true rest from by
          simp [collapseAux, hs]] at h
        rcases List.mem_cons.mp h with rfl | h2
        · exact Or.inl rfl
        · rcases ih true h2 with h1 | ⟨h3, h4⟩
          · exact Or.inl h1
          · exact Or.inr ⟨List.mem_cons_of_mem _ h3, h4⟩
    · rw [show collapseAux b (a :: rest) = a :: collapseAux false rest from by
        cases b <;> simp [collapseAux, hs]] at h
      rcases List.mem_cons.mp h with rfl | h2
      · exact Or.inr ⟨List.mem_cons_self _ _, by simpa using hs⟩
      · rcases ih false h2 with h1 | ⟨h3, h4⟩
        · exact Or.inl h1
        · exact Or.inr ⟨List.mem_cons_of_mem _ h3, h4⟩

/-- Members of `tildeStrip l` are members of `l`. -/
theorem mem_tildeStrip {c : Char} {l : List Char}
    (h : c ∈ tildeStrip l) : c ∈ l := by
  cases l with
  | nil => simp [tildeStrip] at h
  | cons a rest =>
    by_cases ht : (a = '~' || a = tildeOp) = true
    · rw [show tildeStrip (a :: rest) = rest.dropWhile isPythonSpace from by
        simp [tildeStrip, ht]] at h
      exact List.mem_cons_of_mem _ ((List.dropWhile_sublist _).subset h)
    · rw [show tildeStrip (a :: rest) = a :: rest from by
        simp [tildeStrip, ht]] at h
      exact h

/-- Every character of `nbspReplace l` is the plain space or a
character of `l`. -/
theorem mem_nbspReplace {c : Char} {l : List Char}
    (h : c ∈ nbspReplace l) : c = ' ' ∨ c ∈ l := by
  rcases List.mem_map.mp h with ⟨a, ha, rfl⟩
  by_cases hn : (a = nbspChar || a = nnbspChar) = true
  · left; simp [hn]
  · right; simpa [hn] using ha

/-- No character of `zwRemove l` is zero-width. -/
theorem mem_zwRemove {c : Char} {l : List Char}
    (h : c ∈ zwRemove l) : isZeroWidth c = false := by
  have := List.of_mem_filter h
  simpa using this

/-- A whitespace character surviving normalization is the plain space. -/
theorem normalize_space_char {s : List Char} {c : Char}
    (h : c ∈ normalize_author s) (hs : isPythonSpace c = true) :
    c = ' ' := by
  have h1 : c ∈ collapseAux false
      (tildeStrip (nbspReplace (zwRemove (nfkc s)))) :=
    mem_pyStrip h
  rcases mem_collapseAux _ false h1 with h2 | ⟨_, h3⟩
  · exact h2
  · rw [hs] at h3; cases h3

/-- No zero-width character survives normalization. -/
theorem normalize_not_zw {s : List Char} {c : Char}
    (h : c ∈ normalize_author s) : isZeroWidth c = false := by
  have h1 : c ∈ collapseAux false
      (tildeStrip (nbspReplace (zwRemove (nfkc s)))) :=
    mem_pyStrip h
  rcases mem_collapseAux _ false h1 with rfl | ⟨h3, _⟩
  · rfl
  · rcases mem_nbspReplace (mem_tildeStrip h3) with rfl | h4
    · rfl
    · exact mem_zwRemove h4

/-- Dropping the head keeps the no-adjacent-spaces property. -/
theorem noTwoSpaces_tail {a : Char} {l : List Char}
    (h : noTwoSpaces (a :: l) = true) : noTwoSpaces l = true := by
  cases l with
  | nil => rfl
  | cons b rest =>
    simp only [noTwoSpaces, Bool.and_eq_true] at h
    exact h.2

/-- Prepending a character compatible with the head keeps the
no-adjacent-spaces property. -/
theorem noTwoSpaces_cons_of {a : Char} {l : List Char}
    (hl : noTwoSpaces l = true)
    (hh : ∀ c, l.head? = some c →
      (isPythonSpace a && isPythonSpace c) = false) :
    noTwoSpaces (a :: l) = true := by
  cases l with
  | nil => rfl
  | cons b rest =>
    simp only [noTwoSpaces, Bool.and_eq_true]
    refine ⟨?_, hl⟩
    have := hh b rfl
    simp [this]

/-- The first two characters of a no-adjacent-spaces string are not
both whitespace. -/
theorem noTwoSpaces_pair {a b : Char} {l : List Char}
    (h : noTwoSpaces (a :: b :: l) = true) :
    (isPythonSpace a && isPythonSpace b) = false := by
  simp only [noTwoSpaces, Bool.and_eq_true, Bool.not_eq_true'] at h
  exact h.1

/-- After a whitespace run has just been collapsed, the next emitted
character is not whitespace. -/
theorem collapseAux_true_head :
    ∀ (l : List Char) (c : Char),
      (collapseAux true l).head? = some c → isPythonSpace c = false := by
  intro l
  induction l with
  | nil => intro c h; simp [collapseAux] at h
  | cons a rest ih =>
    intro c h
    by_cases hs : isPythonSpace a = true
    · rw [show collapseAux true (a :: rest) = collapseAux true rest from by
        simp [collapseAux, hs]] at h
      exact ih c h
    · rw [show collapseAux true (a :: rest) = a :: collapseAux false rest from by
        simp [collapseAux, hs]] at h
      simp only [List.head?_cons, Option.some.injEq] at h
      subst h
      simpa using hs

/-- Collapsed strings never contain two adjacent whitespace
characters. -/
theorem noTwoSpaces_collapseAux :
    ∀ (l : List Char) (b : Bool), noTwoSpaces (collapseAux b l) = true := by
  intro l
  induction l with
  | nil => intro b; rfl
  | cons a rest ih =>
    intro b
    by_cases hs : isPythonSpace a = true
    · cases b with
      | true =>
        rw [show collapseAux true (a :: rest) = collapseAux true rest from by
          simp [collapseAux, hs]]
        exact ih true
      | false =>
        rw [show collapseAux false (a :: rest)
            = ' ' :: collapseAux true rest from by simp [collapseAux, hs]]
        apply noTwoSpaces_cons_of (ih true)
        intro c hc
        have := collapseAux_true_head rest c hc
        simp [this]
    · rw [show collapseAux b (a :: rest) = a :: collapseAux false rest from by
        cases b <;> simp [collapseAux, hs]]
      apply noTwoSpaces_cons_of (ih false)
      intro c hc
      have : isPythonSpace a = false := by simpa using hs
      simp [this]

/-- Dropping a prefix keeps the no-adjacent-spaces property. -/
theorem noTwoSpaces_dropWhile {p : Char → Bool} :
    ∀ {l : List Char}, noTwoSpaces l = true →
      noTwoSpaces (l.dropWhile p) = true := by
  intro l
  induction l with
  | nil => intro h; exact h
  | cons a rest ih =>
    intro h
    rw [List.dropWhile_cons]
    by_cases hp : p a = true
    · rw [if_pos hp]
      exact ih (noTwoSpaces_tail h)
    · rw [if_neg hp]
      exact h

/-- `dropTrailing` keeps the head of the list when the result is
non-empty. -/
theorem dropTrailing_head :
    ∀ (l : List Char), dropTrailing l = [] ∨
      (dropTrailing l).head? = l.head? := by
  intro l
  cases l with
  | nil => left; rfl
  | cons a rest =>
    cases hdt : dropTrailing rest with
    | nil =>
      by_cases hs : isPythonSpace a = true
      · left; simp [dropTrailing, hdt, hs]
      · right; simp [dropTrailing, hdt, hs]
    | cons d r' =>
      right; simp [dropTrailing, hdt]

/-- `dropTrailing` keeps the no-adjacent-spaces property. -/
theorem noTwoSpaces_dropTrailing :
    ∀ {l : List Char}, noTwoSpaces l = true →
      noTwoSpaces (dropTrailing l) = true := by
  intro l
  induction l with
  | nil => intro h; exact h
  | cons a rest ih =>
    intro h
    cases hdt : dropTrailing rest with
    | nil =>
      by_cases hs : isPythonSpace a = true
      · rw [show dropTrailing (a :: rest) = [] from by
          simp [dropTrailing, hdt, hs]]
        rfl
      · rw [show dropTrailing (a :: rest) = [a] from by
          simp [dropTrailing, hdt, hs]]
        rfl
    | cons d r' =>
      rw [show dropTrailing (a :: rest) = a :: d :: r' from by
        simp [dropTrailing, hdt]]
      have h1 : noTwoSpaces (d :: r') = true := by
        rw [← hdt]; exact ih (noTwoSpaces_tail h)
      apply noTwoSpaces_cons_of h1
      intro c hc
      simp only [List.head?_cons, Option.some.injEq] at hc
      subst hc
      rcases dropTrailing_head rest with he | hh
      · rw [he] at hdt; cases hdt
      · rw [hdt] at hh
        cases rest with
        | nil => simp at hh
        | cons e rest2 =>
          simp only [List.head?_cons, Option.some.injEq] at hh
          subst hh
          exact noTwoSpaces_pair h

/-- `dropTrailing` output never ends in whitespace. -/
theorem endsNoSpace_dropTrailing :
    ∀ (l : List Char), endsNoSpace (dropTrailing l) = true := by
  intro l
  induction l with
  | nil => rfl
  | cons a rest ih =>
    cases hdt : dropTrailing rest with
    | nil =>
      by_cases hs : isPythonSpace a = true
      · rw [show dropTrailing (a :: rest) = [] from by
          simp [dropTrailing, hdt, hs]]
        rfl
      · rw [show dropTrailing (a :: rest) = [a] from by
          simp [dropTrailing, hdt, hs]]
        simpa [endsNoSpace] using hs
    | cons d r' =>
      rw [show dropTrailing (a :: rest) = a :: d :: r' from by
        simp [dropTrailing, hdt]]
      show endsNoSpace (d :: r') = true
      rw [← hdt]
      exact ih

/-- One-step unfolding of `dropTrailing` on a cons cell. -/
theorem dropTrailing_cons (a : Char) (rest : List Char) :
    dropTrailing (a :: rest)
      = match dropTrailing rest with
        | [] => if isPythonSpace a then [] else [a]
        | r => a :: r := by
  simp only [dropTrailing]

/-- A string that does not end in whitespace is fixed by
`dropTrailing`. -/
theorem dropTrailing_id :
    ∀ {l : List Char}, endsNoSpace l = true → dropTrailing l = l := by
  intro l
  induction l with
  | nil => intro _; rfl
  | cons a rest ih =>
    intro h
    cases rest with
    | nil =>
      have hs : isPythonSpace a = false := by
        simpa [endsNoSpace] using h
      simp [dropTrailing, hs]
    | cons b rest2 =>
      have h2 : endsNoSpace (b :: rest2) = true := by
        simpa [endsNoSpace] using h
      have hdt : dropTrailing (b :: rest2) = b :: rest2 := ih h2
      rw [dropTrailing_cons, hdt]

/-- The head of a `dropWhile` output fails the dropped predicate. -/
theorem dropWhile_head_not {p : Char → Bool} :
    ∀ (l : List Char) (c : Char),
      (l.dropWhile p).head? = some c → p c = false := by
  intro l
  induction l with
  | nil => intro c h; simp at h
  | cons a rest ih =>
    intro c h
    rw [List.dropWhile_cons] at h
    by_cases hp : p a = true
    · rw [if_pos hp] at h
      exact ih c h
    · rw [if_neg hp] at h
      simp only [List.head?_cons, Option.some.injEq] at h
      subst h
      simpa using hp

/-- A string whose head fails the predicate is fixed by `dropWhile`. -/
theorem dropWhile_id {p : Char → Bool} {l : List Char}
    (h : ∀ c, l.head? = some c → p c = false) : l.dropWhile p = l := by
  cases l with
  | nil => rfl
  | cons a rest =>
    rw [List.dropWhile_cons, if_neg (by simp [h a rfl])]

/-- The head of a stripped string is not whitespace. -/
theorem pyStrip_head {l : List Char} {c : Char}
    (h : (pyStrip l).head? = some c) : isPythonSpace c = false := by
  rcases dropTrailing_head (l.dropWhile isPythonSpace) with he | hh
  · rw [pyStrip, he] at h
    simp at h
  · rw [pyStrip, hh] at h
    exact dropWhile_head_not _ c h

/-- A string with no leading and no trailing whitespace is fixed by
`pyStrip`. -/
theorem pyStrip_id {l : List Char}
    (hh : ∀ c, l.head? = some c → isPythonSpace c = false)
    (he : endsNoSpace l = true) : pyStrip l = l := by
  rw [pyStrip, dropWhile_id hh, dropTrailing_id he]

/-- When the head is not whitespace, the previous-was-space flag is
irrelevant to collapsing. -/
theorem collapseAux_true_of_head {l : List Char}
    (h : ∀ c, l.head? = some c → isPythonSpace c = false) :
    collapseAux true l = collapseAux false l := by
  cases l with
  | nil => rfl
  | cons a rest =>
    have hs : isPythonSpace a = false := h a rfl
    simp [collapseAux, hs]

/-- A string whose whitespace is all plain spaces with no two adjacent
is fixed by collapsing. -/
theorem collapse_id :
    ∀ {l : List Char},
      (∀ c ∈ l, isPythonSpace c = true → c = ' ') →
      noTwoSpaces l = true → collapseAux false l = l := by
  intro l
  induction l with
  | nil => intro _ _; rfl
  | cons a rest ih =>
    intro hsp hnt
    by_cases hs : isPythonSpace a = true
    · have ha : a = ' ' := hsp a (List.mem_cons_self _ _) hs
      have hhead : ∀ c, rest.head? = some c → isPythonSpace c = false := by
        intro c hc
        cases rest with
        | nil => simp at hc
        | cons b rest2 =>
          simp only [List.head?_cons, Option.some.injEq] at hc
          subst hc
          have := noTwoSpaces_pair hnt
          simpa [hs] using this
      rw [show collapseAux false (a :: rest)
          = ' ' :: collapseAux true rest from by simp [collapseAux, hs]]
      rw [collapseAux_true_of_head hhead]
      rw [ih (fun c hc => hsp c (List.mem_cons_of_mem _ hc))
        (noTwoSpaces_tail hnt)]
      rw [ha]
    · rw [show collapseAux false (a :: rest)
          = a :: collapseAux false rest from by simp [collapseAux, hs]]
      rw [ih (fun c hc => hsp c (List.mem_cons_of_mem _ hc))
        (noTwoSpaces_tail hnt)]

/-- A map whose function fixes every member fixes the list. -/
theorem map_id_of_fixed {f : Char → Char} :
    ∀ {l : List Char}, (∀ c ∈ l, f c = c) → l.map f = l := by
  intro l
  induction l with
  | nil => intro _; rfl
  | cons a rest ih =>
    intro h
    simp only [List.map_cons]
    rw [h a (List.mem_cons_self _ _),
      ih (fun c hc => h c (List.mem_cons_of_mem _ hc))]

/-- A string without zero-width characters is fixed by `zwRemove`. -/
theorem zwRemove_id {l : List Char}
    (h : ∀ c ∈ l, isZeroWidth c = false) : zwRemove l = l := by
  unfold zwRemove
  apply List.filter_eq_self.mpr
  intro a ha
  simp [h a ha]

/-- A string not starting with a tilde-like character is fixed by
`tildeStrip`. -/
theorem tildeStrip_id {l : List Char}
    (h : startsWithTildeChar l = false) : tildeStrip l = l := by
  cases l with
  | nil => rfl
  | cons a rest =>
    have ht : (a = '~' || a = tildeOp) = false := by
      simpa [startsWithTildeChar] using h
    simp [tildeStrip, ht]

/-- No no-break space survives normalization. -/
theorem normalize_nbsp_fixed {s : List Char} {c : Char}
    (h : c ∈ normalize_author s) :
    (c = nbspChar || c = nnbspChar) = false := by
  by_cases hn : (c = nbspChar || c = nnbspChar) = true
  · exfalso
    have hcc : c = nbspChar ∨ c = nnbspChar := by simpa using hn
    rcases hcc with rfl | rfl
    · have := normalize_space_char h (by rfl)
      exact absurd this (by decide)
    · have := normalize_space_char h (by rfl)
      exact absurd this (by decide)
  · simpa using hn

/-- Normalized strings contain no two adjacent whitespace
characters. -/
theorem noTwoSpaces_normalize (s : List Char) :
    noTwoSpaces (normalize_author s) = true := by
  show noTwoSpaces (dropTrailing (List.dropWhile isPythonSpace
    (collapseAux false
      (tildeStrip (nbspReplace (zwRemove (nfkc s))))))) = true
  exact noTwoSpaces_dropTrailing
    (noTwoSpaces_dropWhile (noTwoSpaces_collapseAux _ false))

/-- C4 (amended): `normalize_author` applied twice agrees with a single
application on every string whose normalization does not itself begin
with a tilde-like character and is NFKC-normal (a fixed point of NFKC);
the two counterexample-forced exceptions are the single-tilde stripping
step, which can expose a second leading tilde, and the zero-width
removal step, which can create a new canonical-composition opportunity
for the second NFKC pass. -/
theorem normalize_author_idem_of_normal_no_tilde (s : List Char)
    (h : startsWithTildeChar (normalize_author s) = false)
    (hn : nfkc (normalize_author s) = normalize_author s) :
    normalize_author (normalize_author s) = normalize_author s := by
  have P1 : ∀ c ∈ normalize_author s, isPythonSpace c = true → c = ' ' :=
    fun c hc hs => normalize_space_char hc hs
  have hzw : zwRemove (normalize_author s) = normalize_author s :=
    zwRemove_id (fun c hc => normalize_not_zw hc)
  have hnbsp : nbspReplace (normalize_author s) = normalize_author s :=
    map_id_of_fixed (fun c hc => by
      rw [if_neg]
      simp [normalize_nbsp_fixed hc])
  have htilde : tildeStrip (normalize_author s) = normalize_author s :=
    tildeStrip_id h
  have hcoll : collapseWs (normalize_author s) = normalize_author s :=
    collapse_id P1 (noTwoSpaces_normalize s)
  have hstrip : pyStrip (normalize_author s) = normalize_author s :=
    pyStrip_id (fun c hc => pyStrip_head hc) (endsNoSpace_dropTrailing _)
  calc normalize_author (normalize_author s)
      = pyStrip (collapseWs (tildeStrip (nbspReplace
          (zwRemove (nfkc (normalize_author s)))))) := rfl
    _ = normalize_author s := by
        rw [hn, hzw, hnbsp, htilde, hcoll, hstrip]

/-- Witness for amended idempotence: the spec's own example string
normalizes to `Jane Doe`, which has no leading tilde and is
NFKC-normal, and a second normalization leaves it unchanged. -/
theorem normalize_author_idem_witness :
    startsWithTildeChar (normalize_author "~ Jane​ Doe".toList) = false ∧
    nfkc (normalize_author "~ Jane​ Doe".toList)
      = normalize_author "~ Jane​ Doe".toList ∧
    normalize_author (normalize_author "~ Jane​ Doe".toList)
      = normalize_author "~ Jane​ Doe".toList :=
  ⟨by decide, by decide,
    normalize_author_idem_of_normal_no_tilde _ (by decide) (by decide)⟩
